import Mathlib

/-!
Verification of the ai-shogun coordinator core against its specification.

The definitions below are shallow embeddings of the TypeScript sources:
  * `server/src/message/ledger.ts` (status ranks, `shouldUpgrade`, `mark`, `isAtLeast`),
  * `server/src/message/watcher.ts` (`processClaimedMessage` processing phase),
  * `server/src/history/store.ts` (`appendMessage`, `listMessages`),
  * `server/src/utils.ts` (`slugify`, `toFileTimestamp`, `writeJsonFile`),
  * `server/src/message/writer.ts` (`buildMessageTitle`),
  * `server/src/agent/permissions.ts` (`buildAllowedRecipients`),
  * `server/src/agent/runtime.ts` (queue batching, tool filters, the
    `waitForMessage` limit branch, the wait/timer state machine, auto-reply).

Strings are modelled as Lean `String` or `List Char` (JavaScript strings are
UTF-16 sequences; all characters relevant to the claims are in the BMP, and
case mapping / whitespace predicates are modelled at ASCII scope as noted at
each definition).  Wall-clock timestamps and the random `nanoid` token are
passed as explicit parameters.  Filesystem effects are modelled as explicit
state records.
-/

set_option maxRecDepth 4000

namespace AiShogun

/-! ## Ledger (`server/src/message/ledger.ts`) -/

/-- `LedgerStatus` from ledger.ts: `"history" | "job_done" | "done"`. -/
inductive LedgerStatus where
  | history
  | job_done
  | done
deriving DecidableEq, Repr

/-- `statusRank` table from ledger.ts: history 1, job_done 2, done 3. -/
def statusRank : LedgerStatus → Nat
  | .history => 1
  | .job_done => 2
  | .done => 3

/-- `shouldUpgrade = (current, next) => statusRank[next] > statusRank[current]`. -/
def shouldUpgrade (current next : LedgerStatus) : Bool :=
  statusRank next > statusRank current

/-- `LedgerEntry` from ledger.ts: `{status, updatedAt}`. -/
structure LedgerEntry where
  status : LedgerStatus
  updatedAt : String
deriving DecidableEq, Repr

/-- The `entries: Record<string, LedgerEntry>` object, as an association list
with at most one binding per key (JavaScript object key semantics). -/
abbrev Ledger := List (String × LedgerEntry)

/-- Object property read `this.entries[key]`. -/
def lookupEntry : Ledger → String → Option LedgerEntry
  | [], _ => none
  | (k, v) :: rest, key => if k = key then some v else lookupEntry rest key

/-- Object property write `this.entries[key] = entry` (replace or insert). -/
def setEntry : Ledger → String → LedgerEntry → Ledger
  | [], key, entry => [(key, entry)]
  | (k, v) :: rest, key, entry =>
      if k = key then (key, entry) :: rest else (k, v) :: setEntry rest key entry

/-- `MessageLedger.mark(key, status)` from ledger.ts: if an entry exists and
`shouldUpgrade` is false, return without touching it; otherwise store
`{status, updatedAt: now}`.  The `now` timestamp is passed explicitly. -/
def mark (entries : Ledger) (key : String) (status : LedgerStatus) (now : String) : Ledger :=
  match lookupEntry entries key with
  | some existing =>
      if shouldUpgrade existing.status status then
        setEntry entries key ⟨status, now⟩
      else
        entries
  | none => setEntry entries key ⟨status, now⟩

/-- `MessageLedger.isAtLeast(key, status)` from ledger.ts. -/
def isAtLeast (entries : Ledger) (key : String) (status : LedgerStatus) : Bool :=
  match lookupEntry entries key with
  | none => false
  | some entry => statusRank entry.status ≥ statusRank status

/-- Rank of the persisted entry for `key` (0 when absent). -/
def rankAt (entries : Ledger) (key : String) : Nat :=
  match lookupEntry entries key with
  | none => 0
  | some entry => statusRank entry.status

/-- Replay a sequence of `mark` calls (key, status, timestamp). -/
def markAll (entries : Ledger) (calls : List (String × LedgerStatus × String)) : Ledger :=
  calls.foldl (fun es c => mark es c.1 c.2.1 c.2.2) entries

theorem lookupEntry_setEntry_self (entries : Ledger) (key : String) (entry : LedgerEntry) :
    lookupEntry (setEntry entries key entry) key = some entry := by
  induction entries with
  | nil => simp [setEntry, lookupEntry]
  | cons head rest ih =>
      obtain ⟨k, v⟩ := head
      by_cases hk : k = key
      · simp [setEntry, hk, lookupEntry]
      · simp [setEntry, hk, lookupEntry, ih]

theorem lookupEntry_setEntry_other (entries : Ledger) (key other : String)
    (entry : LedgerEntry) (h : other ≠ key) :
    lookupEntry (setEntry entries key entry) other = lookupEntry entries other := by
  have h' : key ≠ other := Ne.symm h
  induction entries with
  | nil => simp [setEntry, lookupEntry, h']
  | cons head rest ih =>
      obtain ⟨k, v⟩ := head
      by_cases hk : k = key
      · subst hk
        simp [setEntry, lookupEntry, h']
      · by_cases ho : k = other <;> simp [setEntry, hk, lookupEntry, ho, ih, h]

/-- One `mark` call never lowers the rank stored at any key. -/
theorem rankAt_mark_ge (entries : Ledger) (key other : String)
    (status : LedgerStatus) (now : String) :
    rankAt entries other ≤ rankAt (mark entries key status now) other := by
  by_cases hko : other = key
  · subst hko
    unfold mark
    cases hl : lookupEntry entries other with
    | none => simp [rankAt, hl, lookupEntry_setEntry_self]
    | some existing =>
        by_cases hup : shouldUpgrade existing.status status
        · have : statusRank existing.status < statusRank status := by
            simpa [shouldUpgrade] using hup
          simp [rankAt, hl, hup, lookupEntry_setEntry_self]
          omega
        · simp [rankAt, hl, hup]
  · unfold mark
    cases hl : lookupEntry entries key with
    | none => simp [rankAt, lookupEntry_setEntry_other _ _ _ _ hko]
    | some existing =>
        by_cases hup : shouldUpgrade existing.status status <;>
          simp [rankAt, hup, lookupEntry_setEntry_other _ _ _ _ hko]

/-- Rank at a key is non-decreasing across an arbitrary interleaved sequence
of `mark` calls. -/
theorem rankAt_markAll_ge (calls : List (String × LedgerStatus × String))
    (entries : Ledger) (key : String) :
    rankAt entries key ≤ rankAt (markAll entries calls) key := by
  induction calls generalizing entries with
  | nil => simp [markAll]
  | cons c rest ih =>
      calc rankAt entries key
          ≤ rankAt (mark entries c.1 c.2.1 c.2.2) key := rankAt_mark_ge ..
        _ ≤ rankAt (markAll (mark entries c.1 c.2.1 c.2.2) rest) key := ih _
        _ = rankAt (markAll entries (c :: rest)) key := by simp [markAll]

/-- A `mark` whose rank does not exceed the existing entry's rank is a no-op. -/
theorem mark_noop (entries : Ledger) (key : String) (status : LedgerStatus)
    (now : String) (existing : LedgerEntry)
    (hl : lookupEntry entries key = some existing)
    (hle : statusRank status ≤ statusRank existing.status) :
    mark entries key status now = entries := by
  have hup : shouldUpgrade existing.status status = false := by
    simp [shouldUpgrade]
    omega
  simp [mark, hl, hup]

/-- Claim C2: for every key and every sequence of `mark(key, status)` calls on
a message ledger, the rank of the persisted entry's status
(history < job_done < done) is non-decreasing over time; a `mark` whose status
has rank less than or equal to the existing entry's rank leaves the entry
(including `updatedAt`) unchanged. -/
theorem ledger_mark_monotone_and_noop
    (entries : Ledger) (key : String)
    (calls : List (String × LedgerStatus × String))
    (status : LedgerStatus) (now : String) (existing : LedgerEntry)
    (hl : lookupEntry entries key = some existing)
    (hle : statusRank status ≤ statusRank existing.status) :
    rankAt entries key ≤ rankAt (markAll entries calls) key ∧
      mark entries key status now = entries := by
  exact ⟨rankAt_markAll_ge calls entries key, mark_noop entries key status now existing hl hle⟩

/-- Witness for C2 at a concrete ledger: key `k` already at `job_done`; a later
`mark history` call leaves the ledger unchanged while ranks never decrease. -/
theorem ledger_mark_monotone_and_noop_witness :
    rankAt [("k", ⟨.job_done, "t0"⟩)] "k" ≤
        rankAt (markAll [("k", ⟨.job_done, "t0"⟩)]
          [("k", .done, "t1"), ("k", .history, "t2")]) "k" ∧
      mark [("k", ⟨.job_done, "t0"⟩)] "k" .history "t1" = [("k", ⟨.job_done, "t0"⟩)] :=
  ledger_mark_monotone_and_noop [("k", ⟨.job_done, "t0"⟩)] "k"
    [("k", .done, "t1"), ("k", .history, "t2")] .history "t1"
    ⟨.job_done, "t0"⟩ (by decide) (by decide)

/-! ## Mailbox watcher processing phase (`server/src/message/watcher.ts`)

`processClaimedMessage` only ever consults and updates the ledger at its own
idempotency key, so the watcher model carries the single entry stored at that
key.  `markEntry`/`entryAtLeast` are the projections of `mark`/`isAtLeast` to
one key; `lookupEntry_mark_proj` proves the projection agrees with the full
ledger operation. -/

/-- `mark` from ledger.ts, projected to the entry stored at the marked key. -/
def markEntry (entry : Option LedgerEntry) (status : LedgerStatus) (now : String) :
    Option LedgerEntry :=
  match entry with
  | some existing =>
      if shouldUpgrade existing.status status then some ⟨status, now⟩ else some existing
  | none => some ⟨status, now⟩

/-- `isAtLeast` from ledger.ts, projected to one key's entry. -/
def entryAtLeast (entry : Option LedgerEntry) (status : LedgerStatus) : Bool :=
  match entry with
  | none => false
  | some e => statusRank e.status ≥ statusRank status

/-- The single-key projection agrees with `mark` on the full ledger. -/
theorem lookupEntry_mark_proj (entries : Ledger) (key : String)
    (status : LedgerStatus) (now : String) :
    lookupEntry (mark entries key status now) key =
      markEntry (lookupEntry entries key) status now := by
  unfold mark markEntry
  cases hl : lookupEntry entries key with
  | none => simp [lookupEntry_setEntry_self]
  | some existing =>
      by_cases hup : shouldUpgrade existing.status status <;>
        simp [hup, lookupEntry_setEntry_self, hl]

/-- The single-key projection agrees with `isAtLeast` on the full ledger. -/
theorem isAtLeast_proj (entries : Ledger) (key : String) (status : LedgerStatus) :
    isAtLeast entries key status = entryAtLeast (lookupEntry entries key) status := by
  unfold isAtLeast entryAtLeast
  cases lookupEntry entries key <;> simp

/-- Outcome of `handlers.onMessage(message)`: return normally or throw. -/
inductive HandlerOutcome where
  | ok
  | throws
deriving DecidableEq, Repr

/-- State touched by one processing-phase run of a single claimed mailbox
file: the ledger entry at its idempotency key, how often the history append
and the application handler were invoked for this file's message id, and
where the file currently sits. -/
structure WatchState where
  entry : Option LedgerEntry
  /-- number of `historyStore.appendMessage(threadId, message)` invocations. -/
  histCount : Nat
  /-- number of `handlers.onMessage(message)` invocations. -/
  handlerCount : Nat
  /-- the file exists at its `message_processing/` path. -/
  filePresent : Bool
  /-- the file exists at its `history/{threadId}/...` archive path. -/
  archived : Bool
deriving DecidableEq, Repr

/-- Archive step of `processClaimedMessage` (watcher.ts lines 179-183 with
`moveProcessingToHistory`): rename processing → history; on `ENOENT` a
present archive file counts as already moved.  When moved, `mark(key, "done")`. -/
def archiveStep (now : String) (s : WatchState) : WatchState :=
  if s.filePresent then
    { s with filePresent := false, archived := true,
             entry := markEntry s.entry .done now }
  else if s.archived then
    { s with entry := markEntry s.entry .done now }
  else s

/-- `processClaimedMessage` from watcher.ts (processing phase, lines 112-189).
`stat`/`readFile` `ENOENT` terminates silently (the `filePresent` guard).
If the ledger is below `history`, invoke the history append and
`mark(key, "history")`; if below `job_done`, invoke the handler — a throw is
caught by the surrounding `try`/`catch`, ending the run with no further
ledger or filesystem step — otherwise `mark(key, "job_done")`, then archive. -/
def processClaimedMessage (now : String) (s : WatchState) (h : HandlerOutcome) :
    WatchState :=
  if !s.filePresent then s
  else
    let s1 :=
      if !entryAtLeast s.entry .history then
        { s with histCount := s.histCount + 1,
                 entry := markEntry s.entry .history now }
      else s
    if !entryAtLeast s1.entry .job_done then
      match h with
      | .throws => { s1 with handlerCount := s1.handlerCount + 1 }
      | .ok =>
          archiveStep now
            { s1 with handlerCount := s1.handlerCount + 1,
                      entry := markEntry s1.entry .job_done now }
    else archiveStep now s1

/-- A freshly claimed file: no ledger entry, no side effects yet, file in
`message_processing/`. -/
def freshClaim : WatchState :=
  { entry := none, histCount := 0, handlerCount := 0, filePresent := true, archived := false }

/-- Replay arbitrarily many (re-)processings of the same claimed file. -/
def reprocess (now : String) (outcomes : List HandlerOutcome) : WatchState :=
  outcomes.foldl (processClaimedMessage now) freshClaim

/-- The history append fires exactly when the run starts with the file present
and the ledger below `history`. -/
theorem processClaimed_histCount (now : String) (s : WatchState) (h : HandlerOutcome) :
    (processClaimedMessage now s h).histCount =
      s.histCount +
        (if s.filePresent = true ∧ entryAtLeast s.entry .history = false then 1 else 0) := by
  obtain ⟨entry, hc, dc, fp, ar⟩ := s
  cases fp <;> cases ar <;>
    rcases entry with _ | ⟨_ | _ | _, t⟩ <;> cases h <;>
    simp [processClaimedMessage, archiveStep, markEntry, entryAtLeast, shouldUpgrade, statusRank]

/-- The application handler fires exactly when the run starts with the file
present and the ledger below `job_done`. -/
theorem processClaimed_handlerCount (now : String) (s : WatchState) (h : HandlerOutcome) :
    (processClaimedMessage now s h).handlerCount =
      s.handlerCount +
        (if s.filePresent = true ∧ entryAtLeast s.entry .job_done = false then 1 else 0) := by
  obtain ⟨entry, hc, dc, fp, ar⟩ := s
  cases fp <;> cases ar <;>
    rcases entry with _ | ⟨_ | _ | _, t⟩ <;> cases h <;>
    simp [processClaimedMessage, archiveStep, markEntry, entryAtLeast, shouldUpgrade, statusRank]

/-- After any run on a present file, the key has been marked at least `history`. -/
theorem processClaimed_marks_history (now : String) (s : WatchState) (h : HandlerOutcome)
    (hfp : s.filePresent = true) :
    entryAtLeast (processClaimedMessage now s h).entry .history = true := by
  obtain ⟨entry, hc, dc, fp, ar⟩ := s
  subst hfp
  cases ar <;>
    rcases entry with _ | ⟨_ | _ | _, t⟩ <;> cases h <;>
    simp [processClaimedMessage, archiveStep, markEntry, entryAtLeast, shouldUpgrade, statusRank]

/-- When the handler throws, the run leaves the ledger entry exactly at
`history` and performs no archive rename. -/
theorem processClaimed_throws (now : String) (s : WatchState)
    (hfp : s.filePresent = true)
    (hjob : entryAtLeast s.entry .job_done = false) :
    (processClaimedMessage now s .throws).entry.map LedgerEntry.status = some .history ∧
      (processClaimedMessage now s .throws).archived = s.archived ∧
      (processClaimedMessage now s .throws).filePresent = s.filePresent := by
  obtain ⟨entry, hc, dc, fp, ar⟩ := s
  subst hfp
  cases ar <;>
    rcases entry with _ | ⟨_ | _ | _, t⟩ <;>
    simp_all [processClaimedMessage, archiveStep, markEntry, entryAtLeast, shouldUpgrade, statusRank]

/-- Invariant: the history append has fired at most once, and exactly when the
ledger entry has reached `history`. -/
def HistInv (s : WatchState) : Prop :=
  s.histCount ≤ 1 ∧ (1 ≤ s.histCount ↔ entryAtLeast s.entry .history = true)

theorem histInv_fresh : HistInv freshClaim := by
  constructor
  · simp [freshClaim]
  · simp [freshClaim, entryAtLeast]

theorem histInv_step (now : String) (s : WatchState) (h : HandlerOutcome)
    (hs : HistInv s) : HistInv (processClaimedMessage now s h) := by
  obtain ⟨hle, hiff⟩ := hs
  obtain ⟨entry, hc, dc, fp, ar⟩ := s
  simp only [HistInv] at *
  cases fp <;> cases ar <;>
    rcases entry with _ | ⟨_ | _ | _, t⟩ <;> cases h <;>
    simp_all [processClaimedMessage, archiveStep, markEntry, entryAtLeast, shouldUpgrade,
      statusRank]

theorem histInv_reprocess (now : String) (outcomes : List HandlerOutcome) :
    HistInv (reprocess now outcomes) := by
  unfold reprocess
  induction outcomes using List.reverseRecOn with
  | nil => exact histInv_fresh
  | append_singleton rest h ih =>
      rw [List.foldl_append, List.foldl_cons, List.foldl_nil]
      exact histInv_step now _ h ih

/-- Claim C1: in every processing-phase run of a claimed mailbox file, the
history append is invoked only when the ledger rank for the file's
idempotency key is below `history` (and the key is then marked at least
`history`); the application handler is invoked only when the rank is below
`job_done`; if the handler throws, the ledger entry remains exactly at
`history` and no archive rename is performed; and across arbitrarily many
re-processings of the same file the history append — hence the appension of
the message id to `history/{threadId}/messages.jsonl` — happens at most once. -/
theorem watcher_exactly_once_history (now : String) (outcomes : List HandlerOutcome)
    (h : HandlerOutcome) (s : WatchState) (_hs : s = reprocess now outcomes)
    (hfp : s.filePresent = true)
    (hjob : entryAtLeast s.entry .job_done = false) :
    ((processClaimedMessage now s h).histCount ≠ s.histCount ↔
        entryAtLeast s.entry .history = false) ∧
      entryAtLeast (processClaimedMessage now s h).entry .history = true ∧
      ((processClaimedMessage now s h).handlerCount ≠ s.handlerCount ↔
        entryAtLeast s.entry .job_done = false) ∧
      ((processClaimedMessage now s .throws).entry.map LedgerEntry.status = some .history ∧
        (processClaimedMessage now s .throws).archived = s.archived ∧
        (processClaimedMessage now s .throws).filePresent = s.filePresent) ∧
      (reprocess now outcomes).histCount ≤ 1 := by
  refine ⟨?_, processClaimed_marks_history now s h hfp, ?_,
    processClaimed_throws now s hfp hjob, (histInv_reprocess now outcomes).1⟩
  · rw [processClaimed_histCount]
    by_cases hh : entryAtLeast s.entry .history = false <;> simp [hh, hfp]
  · rw [processClaimed_handlerCount]
    simp [hjob, hfp]

/-- Witness for C1: one prior run that threw, then a re-processing.  The state
after the throwing run still has the file in `message_processing/`, ledger at
`history`, and a second run appends no second history entry. -/
theorem watcher_exactly_once_history_witness :
    let s := reprocess "t0" [.throws]
    s = reprocess "t0" [.throws] ∧ s.filePresent = true ∧
      entryAtLeast s.entry .job_done = false ∧
      (((processClaimedMessage "t0" s .ok).histCount ≠ s.histCount ↔
          entryAtLeast s.entry .history = false) ∧
        entryAtLeast (processClaimedMessage "t0" s .ok).entry .history = true ∧
        ((processClaimedMessage "t0" s .ok).handlerCount ≠ s.handlerCount ↔
          entryAtLeast s.entry .job_done = false) ∧
        ((processClaimedMessage "t0" s .throws).entry.map LedgerEntry.status = some .history ∧
          (processClaimedMessage "t0" s .throws).archived = s.archived ∧
          (processClaimedMessage "t0" s .throws).filePresent = s.filePresent) ∧
        (reprocess "t0" [.throws]).histCount ≤ 1) :=
  ⟨rfl, by decide, by decide,
    watcher_exactly_once_history "t0" [.throws] .ok (reprocess "t0" [.throws]) rfl
      (by decide) (by decide)⟩

/-! ## Authorization (`server/src/agent/permissions.ts`) and outbound writes
(`server/src/agent/runtime.ts`) -/

/-- Agent roles (`"shogun" | "karou" | "ashigaru"`). -/
inductive AgentRole where
  | shogun
  | karou
  | ashigaru
deriving DecidableEq, Repr

/-- `buildAllowedRecipients` from permissions.ts.  The JavaScript `Set` is
modelled as a list in insertion order; only membership is consumed. -/
def buildAllowedRecipients (agentId : String) (role : AgentRole)
    (ashigaruIds : List String) : List String :=
  match role with
  | .shogun => ["king", "karou"]
  | .karou => "shogun" :: ashigaruIds
  | .ashigaru => "karou" :: ashigaruIds.filter (fun id => id ≠ agentId)

/-- `Array.from(new Set(xs))`: deduplicate keeping first occurrences. -/
def jsSetDedup : List String → List String
  | [] => []
  | x :: xs => x :: jsSetDedup (xs.filter (fun y => y ≠ x))
termination_by l => l.length
decreasing_by
  simpa using Nat.lt_succ_of_le (List.length_filter_le _ _)

/-- `isDirectSubordinate` from runtime.ts: shogun→karou, karou→ashigaruN. -/
def isDirectSubordinate (role : AgentRole) (target : String) : Bool :=
  match role with
  | .shogun => target = "karou"
  | .karou => target.startsWith "ashigaru"
  | .ashigaru => false

/-- The `sendMessage` tool branch of `runWithTools` (runtime.ts lines
1058-1097): deduplicate recipients, split into `allowed`/`denied` against
`allowedRecipients`, and — when some recipient is allowed and the body
resolves (`bodyOk`) — call the message writer once per allowed recipient.
Returns (recipients written to, denied recipients). -/
def sendMessageWrites (allowedRecipients : List String) (tos : List String)
    (bodyOk : Bool) : List String × List String :=
  let recipients := jsSetDedup tos
  let denied := recipients.filter (fun entry => ! allowedRecipients.contains entry)
  let allowed := recipients.filter (fun entry => allowedRecipients.contains entry)
  if allowed = [] then ([], denied)
  else if bodyOk then (allowed, denied) else ([], denied)

/-- The `interruptAgent` tool branch of `runWithTools` (runtime.ts lines
1023-1057): recipients must be in `allowedRecipients` *and* direct
subordinates; message files are written only when a body is present. -/
def interruptAgentWrites (role : AgentRole) (allowedRecipients : List String)
    (tos : List String) (hasBody : Bool) : List String × List String :=
  let recipients := jsSetDedup tos
  let allowed := recipients.filter
    (fun target => allowedRecipients.contains target && isDirectSubordinate role target)
  let denied := recipients.filter (fun target => ! allowed.contains target)
  if allowed = [] then ([], denied)
  else (if hasBody then allowed else [], denied)

/-- `getAutoReplyRecipient` from runtime.ts lines 93-97. -/
def getAutoReplyRecipient (role : AgentRole) : String :=
  match role with
  | .shogun => "king"
  | .karou => "shogun"
  | .ashigaru => "karou"

/-- Auto-reply write target (runtime.ts lines 750-775): write to the default
superior only when it is in the allowed-recipients set. -/
def autoReplyWrites (role : AgentRole) (allowedRecipients : List String) : List String :=
  if allowedRecipients.contains (getAutoReplyRecipient role) then
    [getAutoReplyRecipient role]
  else []

theorem contains_eq_true_iff_mem (xs : List String) (x : String) :
    xs.contains x = true ↔ x ∈ xs := by
  constructor
  · exact fun h => List.mem_of_elem_eq_true h
  · exact fun h => List.elem_eq_true_of_mem h

theorem jsSetDedup_subset {x : String} : ∀ {l : List String}, x ∈ jsSetDedup l → x ∈ l := by
  intro l
  induction l using jsSetDedup.induct with
  | case1 => simp [jsSetDedup]
  | case2 y ys ih =>
      intro hx
      rw [jsSetDedup] at hx
      rcases List.mem_cons.mp hx with h | h
      · simp [h]
      · exact List.mem_cons_of_mem _ (List.mem_of_mem_filter (ih h))

theorem jsSetDedup_mem {x : String} : ∀ {l : List String}, x ∈ l → x ∈ jsSetDedup l := by
  intro l
  induction l using jsSetDedup.induct with
  | case1 => simp
  | case2 y ys ih =>
      intro hx
      rw [jsSetDedup]
      by_cases hxy : x = y
      · simp [hxy]
      · rcases List.mem_cons.mp hx with h | h
        · exact absurd h hxy
        · exact List.mem_cons_of_mem _ (ih (List.mem_filter.mpr ⟨h, by simpa using hxy⟩))

/-- Claim C3: every outbound mailbox file written by a runtime — `sendMessage`
tool, `interruptAgent` body delivery, or auto-reply — goes to a member of
`buildAllowedRecipients(role, agentId, ashigaruIds)`; that set is
shogun → {king, karou}, karou → {shogun} ∪ ashigaruIds,
ashigaru → {karou} ∪ (ashigaruIds \ {self}); requested recipients outside the
set land in the `denied` list and receive no file. -/
theorem outbound_writes_authorized (agentId : String) (role : AgentRole)
    (ashigaruIds : List String) (tos : List String) (bodyOk hasBody : Bool)
    (r : String) :
    let allowed := buildAllowedRecipients agentId role ashigaruIds
    (r ∈ (sendMessageWrites allowed tos bodyOk).1 → r ∈ allowed) ∧
      (r ∈ (interruptAgentWrites role allowed tos hasBody).1 → r ∈ allowed) ∧
      (r ∈ autoReplyWrites role allowed → r ∈ allowed) ∧
      (r ∈ tos → r ∉ allowed →
        r ∈ (sendMessageWrites allowed tos bodyOk).2 ∧
          r ∉ (sendMessageWrites allowed tos bodyOk).1 ∧
          r ∈ (interruptAgentWrites role allowed tos hasBody).2 ∧
          r ∉ (interruptAgentWrites role allowed tos hasBody).1) ∧
      (r ∈ buildAllowedRecipients agentId .shogun ashigaruIds ↔
        r = "king" ∨ r = "karou") ∧
      (r ∈ buildAllowedRecipients agentId .karou ashigaruIds ↔
        r = "shogun" ∨ r ∈ ashigaruIds) ∧
      (r ∈ buildAllowedRecipients agentId .ashigaru ashigaruIds ↔
        r = "karou" ∨ (r ∈ ashigaruIds ∧ r ≠ agentId)) := by
  intro allowed
  have hsend : r ∈ (sendMessageWrites allowed tos bodyOk).1 → r ∈ allowed := by
    intro hr
    unfold sendMessageWrites at hr
    simp only at hr
    split at hr
    · simp at hr
    · split at hr
      · exact (contains_eq_true_iff_mem _ _).mp (List.mem_filter.mp hr).2
      · simp at hr
  have hint : r ∈ (interruptAgentWrites role allowed tos hasBody).1 → r ∈ allowed := by
    intro hr
    unfold interruptAgentWrites at hr
    simp only at hr
    split at hr
    · simp at hr
    · split at hr
      · have h2 := (List.mem_filter.mp hr).2
        rw [Bool.and_eq_true] at h2
        exact (contains_eq_true_iff_mem _ _).mp h2.1
      · simp at hr
  have hauto : r ∈ autoReplyWrites role allowed → r ∈ allowed := by
    intro hr
    unfold autoReplyWrites at hr
    split at hr
    · next hmem =>
        rcases List.mem_singleton.mp hr with hr'
        subst hr'
        exact (contains_eq_true_iff_mem _ _).mp hmem
    · simp at hr
  have hdenied : r ∈ tos → r ∉ allowed →
      r ∈ (sendMessageWrites allowed tos bodyOk).2 ∧
        r ∉ (sendMessageWrites allowed tos bodyOk).1 ∧
        r ∈ (interruptAgentWrites role allowed tos hasBody).2 ∧
        r ∉ (interruptAgentWrites role allowed tos hasBody).1 := by
    intro hto hnal
    have hded : r ∈ jsSetDedup tos := jsSetDedup_mem hto
    have hnotc : allowed.contains r = false := by
      rw [← Bool.not_eq_true, contains_eq_true_iff_mem]
      exact hnal
    refine ⟨?_, fun hr => hnal (hsend hr), ?_, fun hr => hnal (hint hr)⟩
    · unfold sendMessageWrites
      simp only
      have hm : r ∈ (jsSetDedup tos).filter
          (fun entry => ! allowed.contains entry) :=
        List.mem_filter.mpr ⟨hded, by rw [hnotc]; rfl⟩
      split
      · exact hm
      · split <;> exact hm
    · unfold interruptAgentWrites
      simp only
      have hfnot : ((jsSetDedup tos).filter
          (fun target => allowed.contains target &&
            isDirectSubordinate role target)).contains r = false := by
        rw [← Bool.not_eq_true, contains_eq_true_iff_mem]
        intro hmem
        have h2 := (List.mem_filter.mp hmem).2
        rw [Bool.and_eq_true] at h2
        exact hnal ((contains_eq_true_iff_mem _ _).mp h2.1)
      have hm : r ∈ (jsSetDedup tos).filter
          (fun target => ! ((jsSetDedup tos).filter
            (fun target => allowed.contains target &&
              isDirectSubordinate role target)).contains target) :=
        List.mem_filter.mpr ⟨hded, by rw [hfnot]; rfl⟩
      split
      · exact hm
      · exact hm
  refine ⟨hsend, hint, hauto, hdenied, ?_, ?_, ?_⟩
  · simp [buildAllowedRecipients]
  · simp [buildAllowedRecipients]
  · constructor
    · intro hr
      rcases List.mem_cons.mp hr with h | h
      · exact Or.inl h
      · have := List.mem_filter.mp h
        exact Or.inr ⟨this.1, by simpa using this.2⟩
    · intro hr
      rcases hr with h | ⟨h1, h2⟩
      · simp [buildAllowedRecipients, h]
      · exact List.mem_cons_of_mem _ (List.mem_filter.mpr ⟨h1, by simpa using h2⟩)

/-- Witness for C3: karou (with ashigaru1/ashigaru2) asked to send to `shogun`
and `king`: the file goes to `shogun` only, `king` is denied and unwritten. -/
theorem outbound_writes_authorized_witness :
    let allowed := buildAllowedRecipients "karou" .karou ["ashigaru1", "ashigaru2"]
    ("shogun" ∈ (sendMessageWrites allowed ["shogun", "king"] true).1 →
        "shogun" ∈ allowed) ∧
      "king" ∈ ["shogun", "king"] ∧ "king" ∉ allowed ∧
      ("king" ∈ (sendMessageWrites allowed ["shogun", "king"] true).2 ∧
        "king" ∉ (sendMessageWrites allowed ["shogun", "king"] true).1 ∧
        "king" ∈ (interruptAgentWrites .karou allowed ["shogun", "king"] true).2 ∧
        "king" ∉ (interruptAgentWrites .karou allowed ["shogun", "king"] true).1) := by
  intro allowed
  refine ⟨(outbound_writes_authorized "karou" .karou ["ashigaru1", "ashigaru2"]
      ["shogun", "king"] true true "shogun").1, by decide, by decide, ?_⟩
  exact (outbound_writes_authorized "karou" .karou ["ashigaru1", "ashigaru2"]
      ["shogun", "king"] true true "king").2.2.2.1 (by decide) (by decide)

/-! ## Per-agent queue and batching (`server/src/agent/runtime.ts`) -/

/-- `ShogunMessage` from `shared/src/index.ts` (string fields only). -/
structure ShogunMessage where
  id : String
  threadId : String
  msgFrom : String
  msgTo : String
  title : String
  body : String
  createdAt : String
deriving DecidableEq, Repr

/-- `drainQueuedMessages(threadId)` from runtime.ts lines 577-593: one pass
over the queue collecting entries of the given thread (`drained`, in queue
order) and leaving the rest (`remaining`, in queue order). -/
def drainQueuedMessages (threadId : String) (queue : List ShogunMessage) :
    List ShogunMessage × List ShogunMessage :=
  (queue.filter (fun entry => entry.threadId = threadId),
    queue.filter (fun entry => entry.threadId ≠ threadId))

/-- One `processQueue` step (runtime.ts lines 717-732): pop the head, drain
all queued messages with the same threadId into the batch, leave the rest.
`runBatches` iterates this until the queue is empty, yielding the successive
batches handed to `runWithTools`. -/
def runBatches : List ShogunMessage → List (List ShogunMessage)
  | [] => []
  | message :: rest =>
      (message :: (drainQueuedMessages message.threadId rest).1) ::
        runBatches (drainQueuedMessages message.threadId rest).2
termination_by queue => queue.length
decreasing_by
  simpa [drainQueuedMessages] using Nat.lt_succ_of_le (List.length_filter_le _ _)

/-- `formatMessageBatchInput` from runtime.ts lines 171-189: the provider
input lists the batch in queue order. -/
def formatMessageBatchInput (messages : List ShogunMessage) : String :=
  match messages with
  | [message] =>
      "FROM: " ++ message.msgFrom ++ "\nDATE: " ++ message.createdAt ++
        "\nTITLE: " ++ message.title ++ "\n\n" ++ message.body
  | _ =>
      let n := messages.length
      let blocks := (messages.enum.map (fun p =>
        ["--- MESSAGE " ++ toString (p.1 + 1) ++ "/" ++ toString n ++ " START ---",
         "FROM: " ++ p.2.msgFrom,
         "DATE: " ++ p.2.createdAt,
         "TITLE: " ++ p.2.title,
         "BODY:",
         p.2.body,
         "--- MESSAGE " ++ toString (p.1 + 1) ++ "/" ++ toString n ++ " END ---"])).flatten
      String.intercalate "\n"
        (("BATCH_START count=" ++ toString n) :: blocks ++ ["BATCH_END"])

/-- Claim C4: per (thread, agent) the queue is strict FIFO modulo batching —
for any queue state, concatenating the successive `processQueue` batches and
restricting to one threadId reproduces exactly the queue order for that
thread.  In particular, if m1 was enqueued before m2 with the same threadId,
m1's content reaches the provider input no later than m2's (possibly in the
same batch, whose input `formatMessageBatchInput` lists in batch order). -/
theorem queue_fifo_per_thread (queue : List ShogunMessage) (t : String) :
    ((runBatches queue).flatten).filter (fun m => m.threadId = t) =
      queue.filter (fun m => m.threadId = t) := by
  induction queue using runBatches.induct with
  | case1 => simp [runBatches]
  | case2 message rest ih =>
      rw [runBatches]
      simp only [drainQueuedMessages] at ih ⊢
      simp only [List.flatten_cons, List.filter_append, List.filter_cons]
      rw [ih]
      by_cases hmt : message.threadId = t
      · subst hmt
        have h1 : (rest.filter
            (fun entry => entry.threadId = message.threadId)).filter
              (fun m => m.threadId = message.threadId) =
            rest.filter (fun m => m.threadId = message.threadId) := by
          rw [List.filter_filter]
          apply List.filter_congr
          intro x _
          by_cases hx : x.threadId = message.threadId <;> simp [hx]
        have h2 : (rest.filter
            (fun entry => entry.threadId ≠ message.threadId)).filter
              (fun m => m.threadId = message.threadId) = [] := by
          rw [List.filter_filter]
          apply List.filter_eq_nil_iff.mpr
          intro x _
          by_cases hx : x.threadId = message.threadId <;> simp [hx]
        simp [h1, h2]
      · have h1 : (rest.filter
            (fun entry => entry.threadId = message.threadId)).filter
              (fun m => m.threadId = t) = [] := by
          rw [List.filter_filter]
          apply List.filter_eq_nil_iff.mpr
          intro x _
          by_cases hx : x.threadId = message.threadId <;> simp [hx, hmt]
        have h2 : (rest.filter
            (fun entry => entry.threadId ≠ message.threadId)).filter
              (fun m => m.threadId = t) =
            rest.filter (fun m => m.threadId = t) := by
          rw [List.filter_filter]
          apply List.filter_congr
          intro x _
          by_cases hx : x.threadId = t
          · have hxm : x.threadId ≠ message.threadId := by
              rw [hx]
              exact fun hh => hmt hh.symm
            simp [hx, hxm, Ne.symm hmt]
          · simp [hx]
        rw [if_neg (by simp [hmt]), if_neg (by simp [hmt]), h1, h2]
        simp

/-! ## Filename grammar (`server/src/utils.ts`, `server/src/message/writer.ts`,
`server/src/message/watcher.ts`)

Filename stems are modelled as `List Char`.  `splitUU` is JavaScript
`s.split("__")` (leftmost non-overlapping matches of the separator), `joinUU`
is `parts.join("__")`. -/

/-- Prepend a character to the first chunk of a split result. -/
def consHead (c : Char) : List (List Char) → List (List Char)
  | [] => [[c]]
  | h :: t => (c :: h) :: t

/-- JavaScript `s.split("__")`: scan left to right for non-overlapping
occurrences of the two-character separator `__`. -/
def splitUU : List Char → List (List Char)
  | [] => [[]]
  | [c] => [[c]]
  | c :: d :: rest =>
      if c = '_' ∧ d = '_' then [] :: splitUU rest
      else consHead c (splitUU (d :: rest))

/-- JavaScript `parts.join("__")`. -/
def joinUU : List (List Char) → List Char
  | [] => []
  | [x] => x
  | x :: xs => x ++ '_' :: '_' :: joinUU xs

/-- Whether the string contains two adjacent underscores. -/
def hasUU : List Char → Bool
  | c :: d :: rest => if c = '_' ∧ d = '_' then true else hasUU (d :: rest)
  | _ => false

/-- The characters `slugify` keeps: `[a-z0-9]`. -/
def isSlugChar (c : Char) : Bool :=
  ('a' ≤ c && c ≤ 'z') || ('0' ≤ c && c ≤ '9')

/-- Scanner for `.replace(/[^a-z0-9]+/g, "-")`: `inRun` records whether the
previous character was part of a non-`[a-z0-9]` run (so the run contributes
only one `-`). -/
def collapseAux : Bool → List Char → List Char
  | _, [] => []
  | inRun, c :: rest =>
      if isSlugChar c then c :: collapseAux false rest
      else if inRun then collapseAux true rest
      else '-' :: collapseAux true rest

/-- `.replace(/[^a-z0-9]+/g, "-")` from `slugify`: each maximal run of
characters outside `[a-z0-9]` becomes a single `-`. -/
def collapseNonSlug (l : List Char) : List Char :=
  collapseAux false l

/-- `.replace(/^-+|-+$/g, "")` from `slugify`: strip leading and trailing
dash runs. -/
def trimDashes (l : List Char) : List Char :=
  ((l.dropWhile (fun c => c = '-')).reverse.dropWhile (fun c => c = '-')).reverse

/-- The `cleaned` local of `slugify`: lowercase (ASCII scope; non-ASCII
letters are outside `[a-z0-9]` and collapse to `-` either way), collapse
non-slug runs, trim dashes, truncate to 60 (`.slice(0, 60)`). -/
def slugCleaned (value : List Char) : List Char :=
  (trimDashes (collapseNonSlug (value.map Char.toLower))).take 60

/-- `slugify` from utils.ts: `cleaned` when nonempty, else `message`. -/
def slugify (value : List Char) : List Char :=
  if (slugCleaned value).length > 0 then slugCleaned value else "message".toList

/-- `toFileTimestamp` from utils.ts: `date.toISOString().replace(/[:.]/g, "-")`;
the ISO-8601 string is passed in. -/
def toFileTimestamp (iso : List Char) : List Char :=
  iso.map (fun c => if c = ':' ∨ c = '.' then '-' else c)

/-- `buildMessageTitle` from message/writer.ts:
`${threadId}__${toFileTimestamp()}-${unique}__${slug}` with the `nanoid(6)`
token passed as `rand`. -/
def buildMessageTitle (threadId title iso rand : List Char) : List Char :=
  threadId ++ '_' :: '_' :: ((toFileTimestamp iso ++ '-' :: rand) ++ '_' :: '_' :: slugify title)

/-- `parseTitle` from message/watcher.ts lines 29-38, applied to a filename
stem: split on `__`; with ≥ 3 tokens the threadId is token 0 and the title is
tokens 2.. rejoined; with 2 tokens, token 1; otherwise no threadId. -/
def parseTitle (fileName : List Char) : Option (List Char) × List Char :=
  let parts := splitUU fileName
  if parts.length ≥ 3 then
    (some (parts.headD []), joinUU (parts.drop 2))
  else if parts.length = 2 then
    (some (parts.headD []), parts.getD 1 fileName)
  else
    (none, fileName)

/-- The URL-safe `nanoid` alphabet: `A-Za-z0-9_-`. -/
def isUrlSafeChar (c : Char) : Bool :=
  ('A' ≤ c && c ≤ 'Z') || ('a' ≤ c && c ≤ 'z') || ('0' ≤ c && c ≤ '9') ||
    c = '_' || c = '-'

theorem hasUU_cons_cons (c d : Char) (rest : List Char) :
    hasUU (c :: d :: rest) = if c = '_' ∧ d = '_' then true else hasUU (d :: rest) := by
  rfl

theorem splitUU_no_sep : ∀ {l : List Char}, hasUU l = false → splitUU l = [l] := by
  intro l
  induction l using splitUU.induct with
  | case1 => intro _; rfl
  | case2 c => intro _; rfl
  | case3 c d rest hcd ih =>
      intro h
      rw [hasUU_cons_cons, if_pos hcd] at h
      exact absurd h (by simp)
  | case4 c d rest hcd ih =>
      intro h
      rw [hasUU_cons_cons, if_neg hcd] at h
      rw [splitUU, if_neg hcd, ih h, consHead]

theorem splitUU_append (R : List Char) :
    ∀ (T : List Char), hasUU T = false → T.getLast? ≠ some '_' →
      splitUU (T ++ '_' :: '_' :: R) = T :: splitUU R := by
  intro T
  induction T with
  | nil =>
      intro _ _
      show splitUU ('_' :: '_' :: R) = [] :: splitUU R
      rw [splitUU, if_pos ⟨rfl, rfl⟩]
  | cons c T' ih =>
      intro h1 h2
      cases T' with
      | nil =>
          have hc : ¬ c = '_' := by
            simpa [List.getLast?] using h2
          show splitUU (c :: '_' :: '_' :: R) = [c] :: splitUU R
          rw [splitUU, if_neg (by exact fun hp => hc hp.1)]
          rw [show splitUU ('_' :: '_' :: R) = [] :: splitUU R from by
            rw [splitUU, if_pos ⟨rfl, rfl⟩]]
          rfl
      | cons d T'' =>
          rw [hasUU_cons_cons] at h1
          by_cases hcd : c = '_' ∧ d = '_'
          · rw [if_pos hcd] at h1
            exact absurd h1 (by simp)
          · rw [if_neg hcd] at h1
            have h2' : (d :: T'').getLast? ≠ some '_' := by
              rwa [List.getLast?_cons_cons] at h2
            show splitUU (c :: d :: (T'' ++ '_' :: '_' :: R)) = (c :: d :: T'') :: splitUU R
            rw [splitUU, if_neg hcd]
            have := ih h1 h2'
            rw [show (d :: T'') ++ '_' :: '_' :: R = d :: (T'' ++ '_' :: '_' :: R) from rfl] at this
            rw [this, consHead]

theorem hasUU_eq_false_of_not_mem : ∀ (l : List Char), '_' ∉ l → hasUU l = false
  | [] => fun _ => rfl
  | [_] => fun _ => rfl
  | c :: d :: rest => fun h => by
      rw [hasUU_cons_cons, if_neg (fun hp => h (by simp [hp.1]))]
      exact hasUU_eq_false_of_not_mem (d :: rest) (fun hm => h (List.mem_cons_of_mem _ hm))

theorem hasUU_append_eq_false {A B : List Char} (hA : '_' ∉ A) (hB : hasUU B = false) :
    hasUU (A ++ B) = false := by
  induction A with
  | nil => simpa using hB
  | cons a A' ih =>
      have ha : ¬ a = '_' := fun h => hA (by simp [h])
      have hA' : '_' ∉ A' := fun h => hA (List.mem_cons_of_mem _ h)
      have htail : hasUU (A' ++ B) = false := ih hA'
      rw [List.cons_append]
      cases hAB : A' ++ B with
      | nil => rfl
      | cons b rest =>
          rw [hasUU_cons_cons, if_neg (fun hp => ha hp.1), ← hAB]
          exact htail

theorem mem_collapseAux {c : Char} :
    ∀ (inRun : Bool) (l : List Char), c ∈ collapseAux inRun l →
      isSlugChar c = true ∨ c = '-' := by
  intro inRun l
  induction l generalizing inRun with
  | nil => intro h; exact absurd h (by simp [collapseAux])
  | cons x rest ih =>
      intro h
      rw [collapseAux] at h
      by_cases hx : isSlugChar x = true
      · rw [if_pos hx] at h
        rcases List.mem_cons.mp h with h | h
        · exact Or.inl (h ▸ hx)
        · exact ih false h
      · rw [if_neg hx] at h
        cases inRun with
        | true =>
            rw [if_pos rfl] at h
            exact ih true h
        | false =>
            rw [if_neg (by simp)] at h
            rcases List.mem_cons.mp h with h | h
            · exact Or.inr h
            · exact ih true h

theorem mem_collapseNonSlug {c : Char} {l : List Char}
    (h : c ∈ collapseNonSlug l) : isSlugChar c = true ∨ c = '-' :=
  mem_collapseAux false l h

theorem mem_trimDashes {c : Char} {l : List Char} (h : c ∈ trimDashes l) : c ∈ l := by
  unfold trimDashes at h
  rw [List.mem_reverse] at h
  have h1 := (List.dropWhile_sublist (l := (l.dropWhile (fun c => c = '-')).reverse)
    (p := fun c => c = '-')).mem h
  rw [List.mem_reverse] at h1
  exact (List.dropWhile_sublist (l := l) (p := fun c => c = '-')).mem h1

theorem mem_slugify {c : Char} (title : List Char) (h : c ∈ slugify title) :
    isSlugChar c = true ∨ c = '-' := by
  unfold slugify at h
  split at h
  · have h1 : c ∈ trimDashes (collapseNonSlug (title.map Char.toLower)) :=
      List.take_subset _ _ (by simpa [slugCleaned] using h)
    exact mem_collapseNonSlug (mem_trimDashes h1)
  · have hm : "message".toList = ['m', 'e', 's', 's', 'a', 'g', 'e'] := rfl
    rw [hm] at h
    fin_cases h <;> exact Or.inl (by decide)

theorem slugify_no_underscore (title : List Char) : '_' ∉ slugify title := by
  intro h
  rcases mem_slugify title h with h' | h' <;> exact absurd h' (by decide)

theorem slugify_hasUU (title : List Char) : hasUU (slugify title) = false :=
  hasUU_eq_false_of_not_mem _ (slugify_no_underscore title)

theorem slugify_length (title : List Char) :
    1 ≤ (slugify title).length ∧ (slugify title).length ≤ 60 := by
  have hle : (slugCleaned title).length ≤ 60 := by
    unfold slugCleaned
    exact List.length_take_le ..
  unfold slugify
  split
  · next hp => exact ⟨hp, hle⟩
  · constructor <;> decide

theorem toFileTimestamp_no_underscore {iso : List Char} (h : '_' ∉ iso) :
    '_' ∉ toFileTimestamp iso := by
  intro hmem
  unfold toFileTimestamp at hmem
  rcases List.mem_map.mp hmem with ⟨d, hd, hval⟩
  by_cases hdc : d = ':' ∨ d = '.'
  · rw [if_pos hdc] at hval
    exact absurd hval (by decide)
  · rw [if_neg hdc] at hval
    exact h (hval ▸ hd)

/-- Claim C5 (amended): the `buildMessageTitle` → `parseTitle` roundtrip
recovers the threadId and the slug-normalized title — provided the threadId
contains no `__` and does not end in `_`, and likewise for the random token
(`nanoid` can emit `_`, so a token containing `__` or ending in `_` shifts
the `split("__")` boundaries; see the counterexample).  The slug is a
nonempty `[a-z0-9-]` string of length ≤ 60. -/
theorem buildMessageTitle_parse_roundtrip (threadId title iso rand : List Char)
    (htid1 : hasUU threadId = false) (htid2 : threadId.getLast? ≠ some '_')
    (hiso : '_' ∉ iso)
    (hrand1 : hasUU rand = false) (hrand2 : rand.getLast? ≠ some '_') :
    parseTitle (buildMessageTitle threadId title iso rand) =
        (some threadId, slugify title) ∧
      1 ≤ (slugify title).length ∧ (slugify title).length ≤ 60 ∧
      ∀ c ∈ slugify title, isSlugChar c = true ∨ c = '-' := by
  refine ⟨?_, (slugify_length title).1, (slugify_length title).2, fun c => mem_slugify title⟩
  have hmid_no : '_' ∉ toFileTimestamp iso ++ ['-'] := by
    intro h
    rcases List.mem_append.mp h with h | h
    · exact toFileTimestamp_no_underscore hiso h
    · simp at h
  have hmid1 : hasUU (toFileTimestamp iso ++ '-' :: rand) = false := by
    have : toFileTimestamp iso ++ '-' :: rand = (toFileTimestamp iso ++ ['-']) ++ rand := by
      simp
    rw [this]
    exact hasUU_append_eq_false hmid_no hrand1
  have hmid2 : (toFileTimestamp iso ++ '-' :: rand).getLast? ≠ some '_' := by
    cases hr : rand with
    | nil =>
        rw [List.getLast?_append_of_ne_nil _ (by simp : ('-' :: ([] : List Char)) ≠ [])]
        decide
    | cons r rs =>
        rw [List.getLast?_append_of_ne_nil _ (by simp : ('-' :: (r :: rs)) ≠ [])]
        rw [show ('-' :: (r :: rs)).getLast? = (r :: rs).getLast? from List.getLast?_cons_cons ..]
        rw [← hr]
        exact hrand2
  have hsplit : splitUU (buildMessageTitle threadId title iso rand) =
      [threadId, toFileTimestamp iso ++ '-' :: rand, slugify title] := by
    unfold buildMessageTitle
    rw [splitUU_append _ threadId htid1 htid2]
    rw [splitUU_append _ _ hmid1 hmid2]
    rw [splitUU_no_sep (slugify_hasUU title)]
  unfold parseTitle
  rw [hsplit]
  simp [joinUU]

/-- Witness for C5 (amended claim) at concrete inputs: threadId `t1`, title
`Hello World!`, a real ISO timestamp, rand `abc-12`. -/
theorem buildMessageTitle_parse_roundtrip_witness :
    parseTitle (buildMessageTitle "t1".toList "Hello World!".toList
        "2026-01-01T00:00:00.000Z".toList "abc-12".toList) =
        (some "t1".toList, slugify "Hello World!".toList) ∧
      1 ≤ (slugify "Hello World!".toList).length ∧
      (slugify "Hello World!".toList).length ≤ 60 ∧
      ∀ c ∈ slugify "Hello World!".toList, isSlugChar c = true ∨ c = '-' :=
  buildMessageTitle_parse_roundtrip "t1".toList "Hello World!".toList
    "2026-01-01T00:00:00.000Z".toList "abc-12".toList
    (by decide) (by decide) (by decide) (by decide) (by decide)

/-- Counterexample to C5 as stated: `ab__cd` is a 6-character URL-safe token
(`nanoid`'s alphabet contains `_`), `t1` contains no `__`, yet parsing the
built stem does not return the slugified title (the `__` inside the token
shifts the split). -/
theorem buildMessageTitle_parse_counterexample :
    ("ab__cd".toList.length = 6 ∧ ∀ c ∈ "ab__cd".toList, isUrlSafeChar c = true) ∧
      hasUU "t1".toList = false ∧
      parseTitle (buildMessageTitle "t1".toList "hello".toList
          "2026-01-01T00:00:00.000Z".toList "ab__cd".toList) ≠
        (some "t1".toList, slugify "hello".toList) := by
  refine ⟨⟨by decide, by decide⟩, by decide, ?_⟩
  decide

/-! ## `waitForMessage` per-turn limit (`server/src/agent/runtime.ts`,
`runWithTools` lines 816-1021) -/

/-- The loop variables of `runWithTools` relevant to waits: the loop index
`i`, `maxLoops` (initially 3), and `waitRemaining` (initially `waitLimit`
= 10, decremented before each performed wait, so never negative). -/
structure WaitLoopState where
  i : Nat
  maxLoops : Nat
  waitRemaining : Nat
deriving DecidableEq, Repr

/-- Tool-result payload of a `waitForMessage` request: `{status:"message",
message, remainingWaits}` or `{status:"timeout", timeoutMs, remainingWaits
[, limitReached]}` (absent `limitReached` modelled as `false`). -/
inductive WaitToolPayload where
  | message (remainingWaits : Nat)
  | timeout (timeoutMs : Nat) (remainingWaits : Nat) (limitReached : Bool)
deriving DecidableEq, Repr

/-- Execution of one `waitForMessage` tool request inside the loop
(runtime.ts lines 933-1021).  Limit branch (942-961): `waitRemaining <= 0` ⇒
push `{status:"timeout", timeoutMs:0, remainingWaits:0, limitReached:true}`,
persist nothing, do not suspend, and `maxLoops += 1` only when
`i + 1 >= maxLoops`.  Normal branch: decrement `waitRemaining`, upsert a
pending wait record, await `waitForMessage` (`waited` tells whether a message
arrived), and `maxLoops += 1` unconditionally.  Returns
(state', payload, persistedWaitRecord, invokedWait). -/
def handleWaitForMessage (s : WaitLoopState) (timeoutMs : Nat) (waited : Bool) :
    WaitLoopState × WaitToolPayload × Bool × Bool :=
  if s.waitRemaining ≤ 0 then
    ({ s with maxLoops := if s.i + 1 ≥ s.maxLoops then s.maxLoops + 1 else s.maxLoops },
      .timeout 0 0 true, false, false)
  else
    ({ s with waitRemaining := s.waitRemaining - 1, maxLoops := s.maxLoops + 1 },
      (if waited then .message (s.waitRemaining - 1)
        else .timeout timeoutMs (s.waitRemaining - 1) false),
      true, true)

/-- One loop iteration whose provider output is a single
`TOOL:waitForMessage`: runs only while `i < maxLoops`, then advances `i`. -/
def waitLoopIter (s : WaitLoopState) (timeoutMs : Nat) (waited : Bool) : WaitLoopState :=
  if s.i < s.maxLoops then
    let r := handleWaitForMessage s timeoutMs waited
    { r.1 with i := r.1.i + 1 }
  else s

/-- Iterate `waitLoopIter` with received messages (`waited = true`). -/
def iterWaits : Nat → WaitLoopState → WaitLoopState
  | 0, s => s
  | n + 1, s => iterWaits n (waitLoopIter s 60000 true)

/-- The `runWithTools` initial state: `i = 0`, `maxLoops = 3`,
`waitRemaining = waitLimit = 10`. -/
def waitLoopInit : WaitLoopState := { i := 0, maxLoops := 3, waitRemaining := 10 }

/-- Counterexample to C6 as stated: after ten performed waits (a reachable
run: one wait per loop iteration, each bumping `maxLoops`), the state is
`i = 10, maxLoops = 13, waitRemaining = 0`; the next `waitForMessage` hits
the limit with `i + 1 = 11 < 13`, and `maxLoops` is *not* incremented —
the code bumps it only when `i + 1 >= maxLoops`. -/
theorem waitForMessage_limit_counterexample :
    (iterWaits 10 waitLoopInit).waitRemaining = 0 ∧
      (iterWaits 10 waitLoopInit).i < (iterWaits 10 waitLoopInit).maxLoops ∧
      (handleWaitForMessage (iterWaits 10 waitLoopInit) 60000 true).1.maxLoops =
        (iterWaits 10 waitLoopInit).maxLoops ∧
      ¬ (handleWaitForMessage (iterWaits 10 waitLoopInit) 60000 true).1.maxLoops =
        (iterWaits 10 waitLoopInit).maxLoops + 1 := by
  decide

/-- Claim C6 (amended): when a `waitForMessage` tool call arrives with the
per-turn wait counter exhausted, the runtime immediately returns the
synthetic payload `{status:"timeout", timeoutMs:0, remainingWaits:0,
limitReached:true}`, persists no wait record, does not suspend, leaves the
counter unchanged, and increments `maxLoops` by 1 exactly when the limit is
hit on the final permitted iteration (`i + 1 ≥ maxLoops`) — which in every
case leaves the model at least one further turn (`i + 1 < maxLoops'`). -/
theorem waitForMessage_limit_branch (s : WaitLoopState) (timeoutMs : Nat) (waited : Bool)
    (hexh : s.waitRemaining = 0) (hloop : s.i < s.maxLoops) :
    (handleWaitForMessage s timeoutMs waited).2.1 = .timeout 0 0 true ∧
      (handleWaitForMessage s timeoutMs waited).2.2.1 = false ∧
      (handleWaitForMessage s timeoutMs waited).2.2.2 = false ∧
      (handleWaitForMessage s timeoutMs waited).1.waitRemaining = s.waitRemaining ∧
      (handleWaitForMessage s timeoutMs waited).1.maxLoops =
        (if s.i + 1 ≥ s.maxLoops then s.maxLoops + 1 else s.maxLoops) ∧
      s.i + 1 < (handleWaitForMessage s timeoutMs waited).1.maxLoops := by
  unfold handleWaitForMessage
  rw [if_pos (by omega : s.waitRemaining ≤ 0)]
  refine ⟨rfl, rfl, rfl, rfl, rfl, ?_⟩
  show s.i + 1 < (if s.i + 1 ≥ s.maxLoops then s.maxLoops + 1 else s.maxLoops)
  split <;> omega

/-- Witness for C6 (amended) at the state `i = 2, maxLoops = 3,
waitRemaining = 0`: the limit is hit on the final iteration and `maxLoops`
becomes 4. -/
theorem waitForMessage_limit_branch_witness :
    (handleWaitForMessage ⟨2, 3, 0⟩ 60000 true).2.1 = .timeout 0 0 true ∧
      (handleWaitForMessage ⟨2, 3, 0⟩ 60000 true).2.2.1 = false ∧
      (handleWaitForMessage ⟨2, 3, 0⟩ 60000 true).2.2.2 = false ∧
      (handleWaitForMessage ⟨2, 3, 0⟩ 60000 true).1.waitRemaining =
        WaitLoopState.waitRemaining ⟨2, 3, 0⟩ ∧
      (handleWaitForMessage ⟨2, 3, 0⟩ 60000 true).1.maxLoops =
        (if 2 + 1 ≥ 3 then 3 + 1 else 3) ∧
      2 + 1 < (handleWaitForMessage ⟨2, 3, 0⟩ 60000 true).1.maxLoops :=
  waitForMessage_limit_branch ⟨2, 3, 0⟩ 60000 true (by decide) (by decide)

/-! ## Tool-less auto-reply (`server/src/agent/runtime.ts`, `processQueue`
lines 750-775) -/

/-- JavaScript whitespace for `String.prototype.trim` (ASCII scope; the
bodies involved are ASCII or non-space Unicode). -/
def isJsSpace (c : Char) : Bool :=
  c = ' ' || c = '\t' || c = '\n' || c = '\r' || c.toNat = 11 || c.toNat = 12

/-- `String.prototype.trim`. -/
def jsTrim (l : List Char) : List Char :=
  ((l.dropWhile isJsSpace).reverse.dropWhile isJsSpace).reverse

/-- JavaScript `s.split("\n")`. -/
def splitNL : List Char → List (List Char)
  | [] => [[]]
  | c :: rest => if c = '\n' then [] :: splitNL rest else consHead c (splitNL rest)

/-- `isToolOutput` from runtime.ts lines 99-106: some line, once trimmed,
starts with `TOOL:` or with the JSON tool marker `TOOL `. -/
def isToolOutput (output : List Char) : Bool :=
  (splitNL output).any (fun line =>
    "TOOL:".toList.isPrefixOf (jsTrim line) || "TOOL ".toList.isPrefixOf (jsTrim line))

/-- The auto-reply step at the end of `processQueue` (runtime.ts lines
750-775): with `fallbackBody = output.trim()` nonempty and not tool output,
write one message file to `getAutoReplyRecipient(role)` — when allowed —
with title `auto_reply: {head title}` plus ` (+{batch-1})` for batches and
body `fallbackBody`; otherwise write nothing.  Returns
`some (recipient, title, body)` or `none`. -/
def autoReply (role : AgentRole) (allowedRecipients : List String)
    (headTitle : List Char) (batchLen : Nat) (output : List Char) :
    Option (String × List Char × List Char) :=
  if jsTrim output ≠ [] ∧ ¬ isToolOutput (jsTrim output) then
    if allowedRecipients.contains (getAutoReplyRecipient role) then
      some (getAutoReplyRecipient role,
        "auto_reply: ".toList ++ headTitle ++
          (if batchLen > 1 then
            " (+".toList ++ (toString (batchLen - 1)).toList ++ ")".toList
          else []),
        jsTrim output)
    else none
  else none

/-- Counterexample to C7 as stated: a coalesced batch of 2 for ashigaru1
(provider output `ashigaru1`, head title `rollcall`) produces one file to
karou, but its title is `auto_reply: rollcall (+1)`, not
`auto_reply: rollcall`. -/
theorem auto_reply_counterexample :
    autoReply .ashigaru (buildAllowedRecipients "ashigaru1" .ashigaru
          ["ashigaru1", "ashigaru2"])
        "rollcall".toList 2 "ashigaru1".toList =
      some ("karou", "auto_reply: rollcall (+1)".toList, "ashigaru1".toList) ∧
      "auto_reply: rollcall (+1)".toList ≠ "auto_reply: rollcall".toList := by
  constructor
  · rfl
  · decide

/-- Claim C7 (amended): whenever the final provider output trims nonempty and
contains no tool markers, exactly one auto-reply file goes to the role's
default superior (shogun→king, karou→shogun, ashigaru→karou) with body equal
to the trimmed output and title `auto_reply: {originalTitle}` — with the
suffix ` (+{N-1})` appended when the turn coalesced a batch of N > 1
messages; no file is written when the superior is not in the
allowed-recipients set, or when the output is empty or contains tool
markers. -/
theorem auto_reply_behavior (role : AgentRole) (allowedRecipients : List String)
    (headTitle : List Char) (batchLen : Nat) (output : List Char) :
    (jsTrim output ≠ [] → isToolOutput (jsTrim output) = false →
        allowedRecipients.contains (getAutoReplyRecipient role) = true →
        autoReply role allowedRecipients headTitle batchLen output =
          some (getAutoReplyRecipient role,
            "auto_reply: ".toList ++ headTitle ++
              (if batchLen > 1 then
                " (+".toList ++ (toString (batchLen - 1)).toList ++ ")".toList
              else []),
            jsTrim output)) ∧
      (batchLen = 1 →
        "auto_reply: ".toList ++ headTitle ++
            (if batchLen > 1 then
              " (+".toList ++ (toString (batchLen - 1)).toList ++ ")".toList
            else []) =
          "auto_reply: ".toList ++ headTitle) ∧
      (allowedRecipients.contains (getAutoReplyRecipient role) = false →
        autoReply role allowedRecipients headTitle batchLen output = none) ∧
      (jsTrim output = [] ∨ isToolOutput (jsTrim output) = true →
        autoReply role allowedRecipients headTitle batchLen output = none) ∧
      getAutoReplyRecipient .shogun = "king" ∧
      getAutoReplyRecipient .karou = "shogun" ∧
      getAutoReplyRecipient .ashigaru = "karou" := by
  refine ⟨?_, ?_, ?_, ?_, rfl, rfl, rfl⟩
  · intro h1 h2 h3
    rw [autoReply, if_pos ⟨h1, by simp [h2]⟩, if_pos h3]
  · intro h1
    subst h1
    simp
  · intro h3
    rw [autoReply]
    split
    · rw [if_neg (fun hc => by rw [h3] at hc; exact absurd hc (by decide))]
    · rfl
  · intro hor
    rw [autoReply, if_neg ?_]
    rcases hor with h | h
    · exact fun hc => hc.1 h
    · exact fun hc => hc.2 (by simp [h])

/-- Witness for C7 (amended): ashigaru1, single message `rollcall`, output
`ashigaru1` — one file to karou titled `auto_reply: rollcall`. -/
theorem auto_reply_behavior_witness :
    autoReply .ashigaru (buildAllowedRecipients "ashigaru1" .ashigaru
          ["ashigaru1", "ashigaru2"])
        "rollcall".toList 1 "ashigaru1".toList =
      some ("karou", "auto_reply: ".toList ++ "rollcall".toList ++
          (if 1 > 1 then " (+".toList ++ (toString (1 - 1)).toList ++ ")".toList else []),
        jsTrim "ashigaru1".toList) :=
  (auto_reply_behavior .ashigaru (buildAllowedRecipients "ashigaru1" .ashigaru
      ["ashigaru1", "ashigaru2"]) "rollcall".toList 1 "ashigaru1".toList).1
    (by decide) (by decide) (by decide)

/-! ## Crash-safe JSON persistence (`server/src/utils.ts`, `writeJsonFile`)

`MessageLedger.save` (ledger.ts lines 70-76) and `StateStore.save`
(state/store.ts) both serialize their state and funnel it through
`writeJsonFile`.  The three paths it touches — the target file, its `.bak`
sibling, and the unique temp sibling — are modelled explicitly; each
filesystem primitive is one step, so the trace prefixes are the possible
crash points. -/

/-- The three filesystem paths `writeJsonFile` touches. -/
structure JsonTargetFS where
  /-- content at `filePath`. -/
  cur : Option String
  /-- content at `` `${filePath}.bak` ``. -/
  bak : Option String
  /-- content at the unique `.tmp` sibling. -/
  tmp : Option String
deriving DecidableEq, Repr

/-- `fs.writeFile(tempPath, content)`. -/
def wjfWriteTemp (content : String) (s : JsonTargetFS) : JsonTargetFS :=
  { s with tmp := some content }

/-- `fs.rm(bakPath, {force:true})` (errors ignored). -/
def wjfRemoveBak (s : JsonTargetFS) : JsonTargetFS :=
  { s with bak := none }

/-- `fs.rename(filePath, bakPath)`; `ENOENT` (no current file) is tolerated. -/
def wjfBackupCur (s : JsonTargetFS) : JsonTargetFS :=
  match s.cur with
  | some old => { s with cur := none, bak := some old }
  | none => s

/-- `fs.rename(tempPath, filePath)` — the installing rename. -/
def wjfInstall (s : JsonTargetFS) : JsonTargetFS :=
  { s with cur := s.tmp, tmp := none }

/-- `writeJsonFile(filePath, data)` from utils.ts (content = serialized JSON). -/
def writeJsonFile (s : JsonTargetFS) (content : String) : JsonTargetFS :=
  wjfInstall (wjfBackupCur (wjfRemoveBak (wjfWriteTemp content s)))

/-- All intermediate states of one `writeJsonFile` run (crash points). -/
def writeJsonFileTrace (s : JsonTargetFS) (content : String) : List JsonTargetFS :=
  [s,
   wjfWriteTemp content s,
   wjfRemoveBak (wjfWriteTemp content s),
   wjfBackupCur (wjfRemoveBak (wjfWriteTemp content s)),
   wjfInstall (wjfBackupCur (wjfRemoveBak (wjfWriteTemp content s)))]

/-- Claim C8: every ledger/state save writes the serialized JSON to a temp
sibling and installs it by rename, preserving the previous version as
`{file}.bak`; at every crash point either the target holds the new content,
or the target holds the old content, or the old content sits at `.bak`. -/
theorem writeJsonFile_backup_and_crash_safe (s : JsonTargetFS) (content : String) :
    (writeJsonFile s content).cur = some content ∧
      (∀ old, s.cur = some old → (writeJsonFile s content).bak = some old) ∧
      ∀ st ∈ writeJsonFileTrace s content,
        st.cur = some content ∨ st.cur = s.cur ∨ st.bak = s.cur := by
  obtain ⟨cur, bak, tmp⟩ := s
  cases cur <;>
    simp [writeJsonFile, writeJsonFileTrace, wjfWriteTemp, wjfRemoveBak, wjfBackupCur,
      wjfInstall]

/-- Witness for C8: a target holding `v0` (with a stale `.bak`) overwritten
with `v1`: afterwards the file holds `v1` and `.bak` holds `v0`. -/
theorem writeJsonFile_backup_and_crash_safe_witness :
    (writeJsonFile ⟨some "v0", some "stale", none⟩ "v1").cur = some "v1" ∧
      (writeJsonFile ⟨some "v0", some "stale", none⟩ "v1").bak = some "v0" :=
  ⟨(writeJsonFile_backup_and_crash_safe ⟨some "v0", some "stale", none⟩ "v1").1,
    (writeJsonFile_backup_and_crash_safe ⟨some "v0", some "stale", none⟩ "v1").2.1 "v0" rfl⟩

/-! ## Zero-timeout `waitForMessage` (`server/src/agent/runtime.ts`,
`waitForMessage` lines 595-639, `parseToolRequests` lines 227-235, the
post-wait upserts at lines 987-1004, `stop`/`interrupt` lines 444-459 and
641-654) -/

/-- Wait-record statuses from wait/store.ts. -/
inductive WaitRecStatus where
  | pending
  | received
  | timeout
deriving DecidableEq, Repr

/-- `defaultWaitTimeoutMs = 60_000` from runtime.ts. -/
def defaultWaitTimeoutMs : Nat := 60000

/-- The `timeoutMs` argument extracted by `parseToolRequests`:
`TOOL:waitForMessage timeoutMs=N` parses the digits and clamps with
`Math.max(0, N)`; without the argument, no timeout is recorded. -/
def parseWaitTimeout (digits : Option Nat) : Option Nat :=
  digits.map (fun n => max 0 n)

/-- `effectiveTimeoutMs` inside `waitForMessage` (lines 612-613):
`Math.max(0, timeoutMs)` for a finite number, else the 60 s default. -/
def effectiveTimeoutMs (timeoutMs : Option Nat) : Nat :=
  match timeoutMs with
  | some n => max 0 n
  | none => defaultWaitTimeoutMs

/-- In-memory/persistent state of one suspended wait: the persisted record's
status, whether a timeout timer was installed, whether the in-memory waiter
is still registered, and how the suspended promise resolved
(`none` = still suspended, `some (some m)` = message, `some none` = null). -/
structure WaitSim where
  recordStatus : WaitRecStatus
  timerInstalled : Bool
  waiterInstalled : Bool
  resolvedWith : Option (Option String)
deriving DecidableEq, Repr

/-- Suspension entry (runtime.ts lines 965-987 upsert the pending record and
call `waitForMessage`; lines 615-638 install the waiter and — only when the
effective timeout is positive — the timer). -/
def installWait (timeoutMs : Option Nat) : WaitSim :=
  { recordStatus := .pending,
    timerInstalled := decide (effectiveTimeoutMs timeoutMs > 0),
    waiterInstalled := true,
    resolvedWith := none }

/-- Events that can touch a suspended wait. -/
inductive WaitEvent where
  | arrival (message : String)
  | stopInterrupt
  | timerFire
deriving DecidableEq, Repr

/-- One event against a suspended wait.
* `arrival`: `enqueue` upserts the record to `received` and resolves the
  waiter with the message; the `runWithTools` continuation re-upserts
  `received` (lines 375-406, 990-997).
* `stopInterrupt`: `stop()`/`interrupt()` resolve the waiter with `null`;
  the continuation then upserts the record to `timeout` (lines 451, 647,
  998-1004).
* `timerFire`: only an installed timer transitions the pending record to
  `timeout` and resolves `null` (lines 617-635). -/
def waitStep (s : WaitSim) (e : WaitEvent) : WaitSim :=
  match e with
  | .arrival m =>
      if s.waiterInstalled = true ∧ s.resolvedWith = none then
        { recordStatus := .received, timerInstalled := s.timerInstalled,
          waiterInstalled := false, resolvedWith := some (some m) }
      else s
  | .stopInterrupt =>
      if s.waiterInstalled = true ∧ s.resolvedWith = none then
        { recordStatus := .timeout, timerInstalled := s.timerInstalled,
          waiterInstalled := false, resolvedWith := some none }
      else s
  | .timerFire =>
      if s.timerInstalled = true ∧ s.waiterInstalled = true ∧ s.resolvedWith = none then
        { recordStatus := .timeout, timerInstalled := s.timerInstalled,
          waiterInstalled := false, resolvedWith := some none }
      else s

/-- Run a suspended wait against a sequence of events. -/
def runWait (timeoutMs : Option Nat) (events : List WaitEvent) : WaitSim :=
  events.foldl waitStep (installWait timeoutMs)

theorem waitStep_timer (s : WaitSim) (e : WaitEvent) :
    (waitStep s e).timerInstalled = s.timerInstalled := by
  cases e <;> simp only [waitStep] <;> split <;> rfl

theorem runWaitFrom_facts (events : List WaitEvent) :
    ∀ (s : WaitSim), s.timerInstalled = false →
      (events.foldl waitStep s).timerInstalled = false ∧
      ((events.foldl waitStep s).recordStatus = .timeout →
        s.recordStatus = .timeout ∨ WaitEvent.stopInterrupt ∈ events) ∧
      ((events.foldl waitStep s).recordStatus = .received →
        s.recordStatus = .received ∨ ∃ m, WaitEvent.arrival m ∈ events) ∧
      ((events.foldl waitStep s).resolvedWith ≠ none →
        s.resolvedWith ≠ none ∨ (∃ m, WaitEvent.arrival m ∈ events) ∨
          WaitEvent.stopInterrupt ∈ events) := by
  induction events with
  | nil => exact fun s hs => ⟨hs, fun h => Or.inl h, fun h => Or.inl h, fun h => Or.inl h⟩
  | cons e rest ih =>
      intro s hs
      have hs' : (waitStep s e).timerInstalled = false := by
        rw [waitStep_timer]; exact hs
      obtain ⟨ht, hto, hrecv, hres⟩ := ih (waitStep s e) hs'
      rw [List.foldl_cons]
      refine ⟨ht, ?_, ?_, ?_⟩
      · intro h
        rcases hto h with h' | h'
        · cases e with
          | arrival m =>
              simp only [waitStep] at h'
              split at h'
              · simp at h'
              · exact Or.inl h'
          | stopInterrupt => exact Or.inr (List.mem_cons_self ..)
          | timerFire =>
              simp only [waitStep] at h'
              rw [if_neg (fun hc => by rw [hs] at hc; exact absurd hc.1 (by decide))] at h'
              exact Or.inl h'
        · exact Or.inr (List.mem_cons_of_mem _ h')
      · intro h
        rcases hrecv h with h' | h'
        · cases e with
          | arrival m => exact Or.inr ⟨m, List.mem_cons_self ..⟩
          | stopInterrupt =>
              simp only [waitStep] at h'
              split at h'
              · simp at h'
              · exact Or.inl h'
          | timerFire =>
              simp only [waitStep] at h'
              rw [if_neg (fun hc => by rw [hs] at hc; exact absurd hc.1 (by decide))] at h'
              exact Or.inl h'
        · rcases h' with ⟨m, hm⟩
          exact Or.inr ⟨m, List.mem_cons_of_mem _ hm⟩
      · intro h
        rcases hres h with h' | h' | h'
        · cases e with
          | arrival m => exact Or.inr (Or.inl ⟨m, List.mem_cons_self ..⟩)
          | stopInterrupt => exact Or.inr (Or.inr (List.mem_cons_self ..))
          | timerFire =>
              simp only [waitStep] at h'
              rw [if_neg (fun hc => by rw [hs] at hc; exact absurd hc.1 (by decide))] at h'
              exact Or.inl h'
        · rcases h' with ⟨m, hm⟩
          exact Or.inr (Or.inl ⟨m, List.mem_cons_of_mem _ hm⟩)
        · exact Or.inr (Or.inr (List.mem_cons_of_mem _ h'))

/-- Counterexample to C9 as stated: with an explicit `timeoutMs=0` no timer
is installed, yet stopping the runtime resolves the waiter with `null` and
the `runWithTools` continuation upserts the record to `timeout` — so the
wait *does* transition the persisted record to `timeout`. -/
theorem wait_zero_timeout_counterexample :
    parseWaitTimeout (some 0) = some 0 ∧
      (installWait (some 0)).timerInstalled = false ∧
      (runWait (some 0) [.stopInterrupt]).recordStatus = .timeout := by
  decide

/-- Claim C9 (amended): a `waitForMessage` suspension with explicit
`timeoutMs=0` installs no timeout timer (and none ever appears); the
suspended turn resolves only when a matching message arrives or the runtime
is stopped/interrupted; on arrival the record becomes `received`, and it
reaches `timeout` only through a stop/interrupt (never through a timer). -/
theorem wait_zero_timeout_no_timer (events : List WaitEvent) :
    (installWait (parseWaitTimeout (some 0) |>.getD defaultWaitTimeoutMs |> some)).timerInstalled
        = false ∧
      (runWait (some 0) events).timerInstalled = false ∧
      ((runWait (some 0) events).recordStatus = .timeout →
        WaitEvent.stopInterrupt ∈ events) ∧
      ((runWait (some 0) events).recordStatus = .received →
        ∃ m, WaitEvent.arrival m ∈ events) ∧
      ((runWait (some 0) events).resolvedWith ≠ none →
        (∃ m, WaitEvent.arrival m ∈ events) ∨ WaitEvent.stopInterrupt ∈ events) := by
  have hinit : (installWait (some 0)).timerInstalled = false := by decide
  obtain ⟨ht, hto, hrecv, hres⟩ := runWaitFrom_facts events (installWait (some 0)) hinit
  refine ⟨by decide, ht, ?_, ?_, ?_⟩
  · intro h
    rcases hto h with h' | h'
    · exact absurd h' (by decide)
    · exact h'
  · intro h
    rcases hrecv h with h' | h'
    · exact absurd h' (by decide)
    · exact h'
  · intro h
    rcases hres h with h' | h'
    · exact absurd h' (by decide)
    · exact h'

/-- Witness for C9 (amended): a message arrives during a 0-timeout wait —
no timer, record `received`, and the arrival is in the event list. -/
theorem wait_zero_timeout_no_timer_witness :
    (runWait (some 0) [.arrival "done"]).timerInstalled = false ∧
      ((runWait (some 0) [.arrival "done"]).recordStatus = .received →
        ∃ m, WaitEvent.arrival m ∈ ([.arrival "done"] : List WaitEvent)) ∧
      (runWait (some 0) [.arrival "done"]).recordStatus = .received :=
  ⟨(wait_zero_timeout_no_timer [.arrival "done"]).2.1,
    (wait_zero_timeout_no_timer [.arrival "done"]).2.2.2.1,
    by decide⟩

/-! ## History store (`server/src/history/store.ts`)

The JSONL file under `history/{threadId}/messages.jsonl` is modelled as
`Option (List Char)` (`none` = the file does not exist; reading it raises
`ENOENT`).  `JSON.stringify`/`JSON.parse` are passed in as `stringifyM`/
`parseM`; the roundtrip facts the Node library guarantees for them — the
serialized object is one nonblank line that parses back — are hypotheses of
the claim theorem. -/

/-- `HistoryStore.appendMessage`: `fs.appendFile(logPath,
JSON.stringify(message) + "\n")` (creating the file if missing). -/
def appendMessage {α : Type} (stringifyM : α → List Char) (file : Option (List Char))
    (m : α) : Option (List Char) :=
  some ((file.getD []) ++ stringifyM m ++ ['\n'])

/-- Append a whole sequence of messages to an initially missing file. -/
def appendAll {α : Type} (stringifyM : α → List Char) (ms : List α) : Option (List Char) :=
  ms.foldl (appendMessage stringifyM) none

/-- `HistoryStore.listMessages` (store.ts lines 27-43): on `ENOENT` return
`[]`; otherwise split on `\n`, trim each line, drop blank lines, parse each
line, and reverse. -/
def listMessages {α : Type} (parseM : List Char → α) (file : Option (List Char)) :
    List α :=
  match file with
  | none => []
  | some raw =>
      (((((splitNL raw).map jsTrim).filter (fun line => line ≠ [])).map parseM)).reverse

theorem splitNL_append (R : List Char) :
    ∀ (A : List Char), '\n' ∉ A → splitNL (A ++ '\n' :: R) = A :: splitNL R
  | [] => fun _ => by
      rw [List.nil_append, splitNL, if_pos rfl]
  | c :: A' => fun h => by
      have hc : ¬ c = '\n' := fun hh => h (by simp [hh])
      rw [List.cons_append, splitNL, if_neg hc,
        splitNL_append R A' (fun hm => h (List.mem_cons_of_mem _ hm)), consHead]

theorem appendAll_go {α : Type} (stringifyM : α → List Char) :
    ∀ (ms : List α) (acc : List Char),
      ms.foldl (appendMessage stringifyM) (some acc) =
        some (acc ++ (ms.map (fun m => stringifyM m ++ ['\n'])).flatten) := by
  intro ms
  induction ms with
  | nil => intro acc; simp
  | cons m rest ih =>
      intro acc
      rw [List.foldl_cons]
      show rest.foldl (appendMessage stringifyM) (some (acc ++ stringifyM m ++ ['\n'])) = _
      rw [ih]
      simp

theorem listMessages_appendAll {α : Type} (stringifyM : α → List Char)
    (parseM : List Char → α) :
    ∀ (ms : List α),
      (∀ m ∈ ms, '\n' ∉ stringifyM m) →
      (∀ m ∈ ms, jsTrim (stringifyM m) = stringifyM m) →
      (∀ m ∈ ms, stringifyM m ≠ []) →
      (∀ m ∈ ms, parseM (stringifyM m) = m) →
      ((((splitNL ((ms.map (fun m => stringifyM m ++ ['\n'])).flatten)).map jsTrim).filter
          (fun line => line ≠ [])).map parseM) = ms := by
  intro ms
  induction ms with
  | nil =>
      intro _ _ _ _
      simp [splitNL, jsTrim]
  | cons m rest ih =>
      intro h1 h2 h3 h4
      have hm1 : '\n' ∉ stringifyM m := h1 m (List.mem_cons_self ..)
      have hm2 : jsTrim (stringifyM m) = stringifyM m := h2 m (List.mem_cons_self ..)
      have hm3 : stringifyM m ≠ [] := h3 m (List.mem_cons_self ..)
      have hm4 : parseM (stringifyM m) = m := h4 m (List.mem_cons_self ..)
      rw [List.map_cons, List.flatten_cons, List.append_assoc, List.cons_append,
        List.nil_append, splitNL_append _ _ hm1]
      rw [List.map_cons, hm2, List.filter_cons, if_pos (by simpa using hm3),
        List.map_cons, hm4]
      rw [ih (fun x hx => h1 x (List.mem_cons_of_mem _ hx))
        (fun x hx => h2 x (List.mem_cons_of_mem _ hx))
        (fun x hx => h3 x (List.mem_cons_of_mem _ hx))
        (fun x hx => h4 x (List.mem_cons_of_mem _ hx))]

/-- Claim C10: `listMessages` returns the appended entries most recent first
(blank lines — including the trailing one produced by the final `\n` — are
skipped), and returns `[]` when the JSONL file does not exist. -/
theorem history_listMessages_reverse {α : Type} (stringifyM : α → List Char)
    (parseM : List Char → α) (ms : List α)
    (h1 : ∀ m ∈ ms, '\n' ∉ stringifyM m)
    (h2 : ∀ m ∈ ms, jsTrim (stringifyM m) = stringifyM m)
    (h3 : ∀ m ∈ ms, stringifyM m ≠ [])
    (h4 : ∀ m ∈ ms, parseM (stringifyM m) = m) :
    listMessages parseM (appendAll stringifyM ms) = ms.reverse ∧
      listMessages parseM (none : Option (List Char)) = ([] : List α) := by
  refine ⟨?_, rfl⟩
  cases hms : ms with
  | nil => simp [appendAll, listMessages]
  | cons m rest =>
      subst hms
      have hcontent : appendAll stringifyM (m :: rest) =
          some (((m :: rest).map (fun x => stringifyM x ++ ['\n'])).flatten) := by
        unfold appendAll
        rw [List.foldl_cons]
        show rest.foldl (appendMessage stringifyM) (some ([] ++ stringifyM m ++ ['\n'])) = _
        rw [appendAll_go]
        simp
      rw [hcontent]
      show ((((splitNL (((m :: rest).map
          (fun x => stringifyM x ++ ['\n'])).flatten)).map jsTrim).filter
            (fun line => line ≠ [])).map parseM).reverse = (m :: rest).reverse
      rw [listMessages_appendAll stringifyM parseM (m :: rest) h1 h2 h3 h4]

/-- Witness for C10: two concrete line entries (`stringifyM = parseM = id`):
the most recently appended comes back first, and a missing file yields `[]`. -/
theorem history_listMessages_reverse_witness :
    listMessages (fun l => l) (appendAll (fun l => l) ["m1".toList, "m2".toList]) =
        [["m1".toList, "m2".toList].getD 1 [], ["m1".toList, "m2".toList].getD 0 []] ∧
      listMessages (fun l : List Char => l) (none : Option (List Char)) =
        ([] : List (List Char)) := by
  have h := history_listMessages_reverse (fun l => l) (fun l => l)
    ["m1".toList, "m2".toList]
    (by decide) (by decide) (by decide) (fun m _ => rfl)
  exact ⟨by rw [h.1]; decide, h.2⟩

end AiShogun
